import Mathlib

/-!
Verification of the SudokuForge constraint engine.

The board model, placement validator, solver, solution counter, generator
and conflict detector are embedded from `src/algorithms/solver.ts`, the
generator half of that file, `src/algorithms/types.ts` and the validation
module.  TypeScript's `CellValue` (`0 | 1 | ... | 9`) becomes `Fin 10`,
a `Board` becomes a function `Fin 9 → Fin 9 → Fin 10`, and the in-place
mutation of `MutableBoard` becomes explicit board passing.  `Math.random()`
is modelled as an arbitrary stream of natural numbers; `Math.floor(random *
(i + 1))`, which lands in `[0, i]`, becomes `stream k % (i + 1)`.
-/

set_option maxRecDepth 2000
set_option linter.constructorNameAsVariable false

namespace SudokuForge

/-- `CellValue` from `types.ts`: 1–9 for filled, 0 for empty. -/
abbrev Cell := Fin 10

/-- `Board` from `types.ts`: 9 rows × 9 columns of cell values. -/
abbrev Board := Fin 9 → Fin 9 → Cell

/-- `Position` from `types.ts`. -/
abbrev Pos := Fin 9 × Fin 9

/-- `GRID_SIZE` from `types.ts`. -/
def GRID_SIZE : Nat := 9

/-- `BLOCK_SIZE` from `types.ts`. -/
def BLOCK_SIZE : Nat := 3

/-- `createEmptyBoard` from `types.ts`: all cells zero. -/
def createEmptyBoard : Board := fun _ _ => 0

/-- `cloneBoard` from `types.ts`: a fresh copy of the grid (in the pure
model, the same function). -/
def cloneBoard (b : Board) : Board := fun r c => b r c

/-- `freezeBoard` from `types.ts`: a read-only copy of the grid. -/
def freezeBoard (b : Board) : Board := fun r c => b r c

/-- Writing `board[row][col] = v` on a mutable board. -/
def setCell (b : Board) (row col : Fin 9) (v : Cell) : Board :=
  fun r c => if r = row ∧ c = col then v else b r c

/-- All 81 positions in row-major order, as scanned by the nested
`for` loops of the TypeScript code. -/
def allPositions : List Pos :=
  (List.finRange 9).flatMap fun r => (List.finRange 9).map fun c => (r, c)

/-- `findEmptyCell` from `solver.ts`: the first empty cell in row-major
order, or `none` if the board is full. -/
def findEmptyCell (b : Board) : Option Pos :=
  allPositions.find? fun p => decide (b p.1 p.2 = 0)

/-- `isValidPlacement` from `solver.ts`: `true` when `value = 0`; otherwise
scans the row (skipping column `col`), the column (skipping row `row`) and
the 3×3 block (skipping the cell itself) for another occurrence of
`value`. -/
def isValidPlacement (b : Board) (row col : Fin 9) (value : Cell) : Bool :=
  if value = 0 then true
  else
    !((List.finRange 9).any fun c => decide (c ≠ col) && decide (b row c = value)) &&
    (!((List.finRange 9).any fun r => decide (r ≠ row) && decide (b r col = value)) &&
     !((List.finRange 3).any fun i => (List.finRange 3).any fun j =>
        let r : Fin 9 := ⟨row.val / 3 * 3 + i.val, by
          have hr := row.isLt; have hi := i.isLt; omega⟩
        let c : Fin 9 := ⟨col.val / 3 * 3 + j.val, by
          have hc := col.isLt; have hj := j.isLt; omega⟩
        (decide (r ≠ row) || decide (c ≠ col)) && decide (b r c = value)))

/-- `isBoardComplete` from `solver.ts`: no empty cell remains and every
filled cell is a valid placement against the rest of the board. -/
def isBoardComplete (b : Board) : Bool :=
  match findEmptyCell b with
  | some _ => false
  | none =>
      allPositions.all fun p =>
        decide (b p.1 p.2 ≠ 0) && isValidPlacement b p.1 p.2 (b p.1 p.2)

/-- `getConflicts` from the validation module: positions of the nonzero
cells whose value fails `isValidPlacement` against the current board,
collected in row-major order. -/
def getConflicts (b : Board) : List Pos :=
  allPositions.filter fun p =>
    decide (b p.1 p.2 ≠ 0) && !(isValidPlacement b p.1 p.2 (b p.1 p.2))

/-- `isValidPartialBoard` from the validation module: no rule violations. -/
def isValidPartialBoard (b : Board) : Bool :=
  (getConflicts b).length == 0

/-- The candidate digits `[1, ..., 9]` tried by the solver and counter. -/
def digits : List Cell := [1, 2, 3, 4, 5, 6, 7, 8, 9]

section BasicLemmas

theorem mem_allPositions (p : Pos) : p ∈ allPositions := by
  rcases p with ⟨r, c⟩
  simp [allPositions, List.mem_flatMap]

theorem findEmptyCell_eq_zero {b : Board} {p : Pos}
    (h : findEmptyCell b = some p) : b p.1 p.2 = 0 := by
  have := List.find?_some h
  simpa using this

theorem findEmptyCell_eq_none_iff {b : Board} :
    findEmptyCell b = none ↔ ∀ r c, b r c ≠ 0 := by
  unfold findEmptyCell
  rw [List.find?_eq_none]
  constructor
  · intro h r c hz
    have := h (r, c) (mem_allPositions _)
    simp at this
    exact this hz
  · intro h p _
    simp [h p.1 p.2]

end BasicLemmas

/-- Two positions lie in the same 3×3 block. -/
def sameBlock (p q : Pos) : Prop :=
  p.1.val / 3 = q.1.val / 3 ∧ p.2.val / 3 = q.2.val / 3

/-- Two positions share a row, a column, or a 3×3 block. -/
def sameUnit (p q : Pos) : Prop :=
  p.1 = q.1 ∨ p.2 = q.2 ∨ sameBlock p q

theorem sameBlock_symm {p q : Pos} (h : sameBlock p q) : sameBlock q p :=
  ⟨h.1.symm, h.2.symm⟩

theorem sameUnit_symm {p q : Pos} (h : sameUnit p q) : sameUnit q p := by
  rcases h with h | h | h
  · exact Or.inl h.symm
  · exact Or.inr (Or.inl h.symm)
  · exact Or.inr (Or.inr (sameBlock_symm h))

section PlacementChar

variable {b : Board} {row col : Fin 9} {v : Cell}

private theorem rowAny_iff :
    ((List.finRange 9).any fun c => decide (c ≠ col) && decide (b row c = v)) = true ↔
      ∃ c, c ≠ col ∧ b row c = v := by
  simp [List.any_eq_true]

private theorem colAny_iff :
    ((List.finRange 9).any fun r => decide (r ≠ row) && decide (b r col = v)) = true ↔
      ∃ r, r ≠ row ∧ b r col = v := by
  simp [List.any_eq_true]

private theorem blockAny_iff :
    ((List.finRange 3).any fun i => (List.finRange 3).any fun j =>
        let r : Fin 9 := ⟨row.val / 3 * 3 + i.val, by
          have hr := row.isLt; have hi := i.isLt; omega⟩
        let c : Fin 9 := ⟨col.val / 3 * 3 + j.val, by
          have hc := col.isLt; have hj := j.isLt; omega⟩
        (decide (r ≠ row) || decide (c ≠ col)) && decide (b r c = v)) = true ↔
      ∃ r c, (r ≠ row ∨ c ≠ col) ∧ sameBlock (r, c) (row, col) ∧ b r c = v := by
  simp only [List.any_eq_true, List.mem_finRange, Bool.and_eq_true, Bool.or_eq_true,
    decide_eq_true_eq, true_and]
  constructor
  · rintro ⟨i, j, hne, hval⟩
    refine ⟨_, _, hne, ⟨?_, ?_⟩, hval⟩
    · show (row.val / 3 * 3 + i.val) / 3 = row.val / 3
      have hi := i.isLt; omega
    · show (col.val / 3 * 3 + j.val) / 3 = col.val / 3
      have hj := j.isLt; omega
  · rintro ⟨r, c, hne, ⟨hbr, hbc⟩, hval⟩
    have hbr' : r.val / 3 = row.val / 3 := hbr
    have hbc' : c.val / 3 = col.val / 3 := hbc
    clear hbr hbc
    have hr9 := r.isLt
    have hc9 := c.isLt
    refine ⟨⟨r.val % 3, by omega⟩, ⟨c.val % 3, by omega⟩, ?_, ?_⟩
    · have her : (⟨row.val / 3 * 3 + r.val % 3, by
          have := row.isLt; omega⟩ : Fin 9) = r := by
        apply Fin.ext
        show row.val / 3 * 3 + r.val % 3 = r.val
        omega
      have hec : (⟨col.val / 3 * 3 + c.val % 3, by
          have := col.isLt; omega⟩ : Fin 9) = c := by
        apply Fin.ext
        show col.val / 3 * 3 + c.val % 3 = c.val
        omega
      rw [her, hec]
      exact hne
    · have her : (⟨row.val / 3 * 3 + r.val % 3, by
          have := row.isLt; omega⟩ : Fin 9) = r := by
        apply Fin.ext
        show row.val / 3 * 3 + r.val % 3 = r.val
        omega
      have hec : (⟨col.val / 3 * 3 + c.val % 3, by
          have := col.isLt; omega⟩ : Fin 9) = c := by
        apply Fin.ext
        show col.val / 3 * 3 + c.val % 3 = c.val
        omega
      rw [her, hec]
      exact hval

/-- Characterisation of `isValidPlacement` returning `false`: the value is
nonzero and already appears at a different cell of the same row, the same
column, or the same 3×3 block. -/
theorem isValidPlacement_false_iff (b : Board) (row col : Fin 9) (v : Cell) :
    isValidPlacement b row col v = false ↔
      v ≠ 0 ∧ ((∃ c, c ≠ col ∧ b row c = v) ∨ (∃ r, r ≠ row ∧ b r col = v) ∨
        ∃ r c, (r ≠ row ∨ c ≠ col) ∧ sameBlock (r, c) (row, col) ∧ b r c = v) := by
  unfold isValidPlacement
  rcases eq_or_ne v 0 with hv | hv
  · simp [hv]
  · rw [if_neg hv]
    have hb : ∀ x y z : Bool,
        ((!x && (!y && !z)) = false ↔ (x = true ∨ y = true ∨ z = true)) := by decide
    rw [hb, rowAny_iff, colAny_iff, blockAny_iff]
    simp [hv]

end PlacementChar

/-- Position form of `isValidPlacement_false_iff`: a failing placement is a
nonzero value duplicated at some other cell of the same unit. -/
theorem isValidPlacement_false_iff_pos (b : Board) (row col : Fin 9) (v : Cell) :
    isValidPlacement b row col v = false ↔
      v ≠ 0 ∧ ∃ q : Pos, q ≠ (row, col) ∧ sameUnit q (row, col) ∧ b q.1 q.2 = v := by
  rw [isValidPlacement_false_iff]
  constructor
  · rintro ⟨hv, h | h | h⟩
    · obtain ⟨c, hc, hval⟩ := h
      exact ⟨hv, (row, c), by simp [Prod.ext_iff, hc], Or.inl rfl, hval⟩
    · obtain ⟨r, hr, hval⟩ := h
      exact ⟨hv, (r, col), by simp [Prod.ext_iff, hr], Or.inr (Or.inl rfl), hval⟩
    · obtain ⟨r, c, hne, hblk, hval⟩ := h
      refine ⟨hv, (r, c), ?_, Or.inr (Or.inr hblk), hval⟩
      simp only [ne_eq, Prod.ext_iff, not_and]
      intro h1 h2
      rcases hne with h | h
      · exact h h1
      · exact h h2
  · rintro ⟨hv, q, hqne, hunit, hval⟩
    refine ⟨hv, ?_⟩
    rcases hunit with h | h | h
    · left
      have h' : q.1 = row := h
      refine ⟨q.2, ?_, ?_⟩
      · intro hq2
        exact hqne (Prod.ext h hq2)
      · rw [← h']
        exact hval
    · right; left
      have h' : q.2 = col := h
      refine ⟨q.1, ?_, ?_⟩
      · intro hq1
        exact hqne (Prod.ext hq1 h)
      · rw [← h']
        exact hval
    · right; right
      refine ⟨q.1, q.2, ?_, ?_, hval⟩
      · by_contra hcon
        push_neg at hcon
        exact hqne (Prod.ext hcon.1 hcon.2)
      · exact h

theorem setCell_self (b : Board) (row col : Fin 9) (v : Cell) :
    setCell b row col v row col = v := by
  simp [setCell]

theorem setCell_ne {b : Board} {row col : Fin 9} {v : Cell} {q : Pos}
    (h : q ≠ (row, col)) : setCell b row col v q.1 q.2 = b q.1 q.2 := by
  have hn : ¬(q.1 = row ∧ q.2 = col) := by
    rintro ⟨h1, h2⟩
    exact h (Prod.ext h1 h2)
  simp [setCell, hn]

theorem setCell_ne' {b : Board} {row col : Fin 9} {v : Cell} {r c : Fin 9}
    (h : ¬(r = row ∧ c = col)) : setCell b row col v r c = b r c := by
  simp [setCell, h]

/-- Re-checking the just-written cell: the scan excludes the cell itself,
so writing it does not change the verdict. -/
theorem isValidPlacement_setCell_self (b : Board) (row col : Fin 9) (v w : Cell) :
    isValidPlacement (setCell b row col v) row col w = isValidPlacement b row col w := by
  have h1 := isValidPlacement_false_iff_pos (setCell b row col v) row col w
  have h2 := isValidPlacement_false_iff_pos b row col w
  have hiff : isValidPlacement (setCell b row col v) row col w = false ↔
      isValidPlacement b row col w = false := by
    rw [h1, h2]
    constructor
    · rintro ⟨hw, q, hqne, hunit, hval⟩
      exact ⟨hw, q, hqne, hunit, (setCell_ne hqne).symm.trans hval⟩
    · rintro ⟨hw, q, hqne, hunit, hval⟩
      exact ⟨hw, q, hqne, hunit, (setCell_ne hqne).trans hval⟩
  cases hx : isValidPlacement (setCell b row col v) row col w <;>
    cases hy : isValidPlacement b row col w <;> simp_all

/-- Every filled cell of the board is a valid placement where it stands
(true of any valid, possibly partial, board; empty cells pass trivially). -/
def boardOK (b : Board) : Prop :=
  ∀ r c, isValidPlacement b r c (b r c) = true

/-- `sol` is a valid completion of `b`: it agrees with `b` on the filled
cells of `b`, has no empty cell, and has no rule violation. -/
def isCompletionOf (b sol : Board) : Prop :=
  (∀ r c, b r c ≠ 0 → sol r c = b r c) ∧ (∀ r c, sol r c ≠ 0) ∧ boardOK sol

instance (b sol : Board) : Decidable (isCompletionOf b sol) := by
  unfold isCompletionOf boardOK
  infer_instance

/-- The set of valid completions of a board. -/
def completions (b : Board) : Finset Board :=
  Finset.univ.filter fun sol => isCompletionOf b sol

/-- The number of distinct valid completions of a board. -/
def numCompletions (b : Board) : Nat := (completions b).card

theorem mem_completions {b sol : Board} :
    sol ∈ completions b ↔ isCompletionOf b sol := by
  simp [completions]

theorem getConflicts_mem (b : Board) (p : Pos) :
    p ∈ getConflicts b ↔
      b p.1 p.2 ≠ 0 ∧ isValidPlacement b p.1 p.2 (b p.1 p.2) = false := by
  unfold getConflicts
  rw [List.mem_filter]
  simp [mem_allPositions]

theorem isValidPartialBoard_iff (b : Board) :
    isValidPartialBoard b = true ↔ boardOK b := by
  unfold isValidPartialBoard
  rw [beq_iff_eq, List.length_eq_zero]
  constructor
  · intro h r c
    by_contra hne
    have hfalse : isValidPlacement b r c (b r c) = false := by
      cases hh : isValidPlacement b r c (b r c)
      · rfl
      · exact absurd hh hne
    have hnz : b r c ≠ 0 := ((isValidPlacement_false_iff b r c _).mp hfalse).1
    have hmem : (r, c) ∈ getConflicts b := (getConflicts_mem b (r, c)).mpr ⟨hnz, hfalse⟩
    rw [h] at hmem
    exact absurd hmem (List.not_mem_nil _)
  · intro h
    rw [List.eq_nil_iff_forall_not_mem]
    intro p hp
    obtain ⟨_, hfalse⟩ := (getConflicts_mem b p).mp hp
    rw [h p.1 p.2] at hfalse
    simp at hfalse

theorem isBoardComplete_iff (b : Board) :
    isBoardComplete b = true ↔ (∀ r c, b r c ≠ 0) ∧ boardOK b := by
  unfold isBoardComplete
  cases h : findEmptyCell b with
  | some p =>
      have hz := findEmptyCell_eq_zero h
      simp only [Bool.false_eq_true, false_iff]
      rintro ⟨hc, _⟩
      exact hc p.1 p.2 hz
  | none =>
      rw [findEmptyCell_eq_none_iff] at h
      simp only [List.all_eq_true, Bool.and_eq_true, decide_eq_true_eq]
      constructor
      · intro hall
        exact ⟨h, fun r c => (hall (r, c) (mem_allPositions _)).2⟩
      · rintro ⟨_, hok⟩ p _
        exact ⟨h p.1 p.2, hok p.1 p.2⟩

section CompletionLemmas

variable {b : Board} {row col : Fin 9} {v : Cell}

/-- Filling an empty cell with a nonzero value: completions of the filled
board are exactly the completions of the original carrying that value. -/
theorem isCompletionOf_setCell_iff (h0 : b row col = 0) (hv : v ≠ 0) (sol : Board) :
    isCompletionOf (setCell b row col v) sol ↔ isCompletionOf b sol ∧ sol row col = v := by
  unfold isCompletionOf
  constructor
  · rintro ⟨hext, hcomp, hok⟩
    have hrc : sol row col = v := by
      have := hext row col (by rw [setCell_self]; exact hv)
      rwa [setCell_self] at this
    refine ⟨⟨?_, hcomp, hok⟩, hrc⟩
    intro r c hne
    have hneq : ¬(r = row ∧ c = col) := by
      rintro ⟨rfl, rfl⟩
      exact hne h0
    have := hext r c (by rw [setCell_ne' hneq]; exact hne)
    rwa [setCell_ne' hneq] at this
  · rintro ⟨⟨hext, hcomp, hok⟩, hrc⟩
    refine ⟨?_, hcomp, hok⟩
    intro r c hne
    by_cases hc : r = row ∧ c = col
    · obtain ⟨rfl, rfl⟩ := hc
      rw [setCell_self]
      exact hrc
    · rw [setCell_ne' hc]
      rw [setCell_ne' hc] at hne
      exact hext r c hne

/-- Filling a cell with a value that fails `isValidPlacement` leaves a board
with no valid completion. -/
theorem completions_setCell_invalid (hinv : isValidPlacement b row col v = false) :
    completions (setCell b row col v) = ∅ := by
  rw [Finset.eq_empty_iff_forall_not_mem]
  intro sol hsol
  rw [mem_completions] at hsol
  obtain ⟨hext, hcomp, hok⟩ := hsol
  obtain ⟨hv, q, hqne, hqunit, hqval⟩ := (isValidPlacement_false_iff_pos b row col v).mp hinv
  have h1 : sol row col = v := by
    have := hext row col (by rw [setCell_self]; exact hv)
    rwa [setCell_self] at this
  have h2 : sol q.1 q.2 = v := by
    have hbq : setCell b row col v q.1 q.2 = v := (setCell_ne hqne).trans hqval
    have := hext q.1 q.2 (by rw [hbq]; exact hv)
    rwa [hbq] at this
  have hfalse : isValidPlacement sol q.1 q.2 (sol q.1 q.2) = false := by
    rw [isValidPlacement_false_iff_pos]
    refine ⟨by rw [h2]; exact hv, (row, col), ?_, sameUnit_symm hqunit, ?_⟩
    · exact fun h => hqne h.symm
    · rw [h2, h1]
  rw [hok q.1 q.2] at hfalse
  simp at hfalse

theorem numCompletions_setCell_invalid (hinv : isValidPlacement b row col v = false) :
    numCompletions (setCell b row col v) = 0 := by
  rw [numCompletions, completions_setCell_invalid hinv, Finset.card_empty]

/-- Writing a value that passes `isValidPlacement` keeps the whole board
free of rule violations. -/
theorem boardOK_setCell (hOK : boardOK b) (hval : isValidPlacement b row col v = true) :
    boardOK (setCell b row col v) := by
  intro r c
  by_cases hrc : r = row ∧ c = col
  · obtain ⟨rfl, rfl⟩ := hrc
    rw [setCell_self, isValidPlacement_setCell_self]
    exact hval
  · rw [setCell_ne' hrc]
    by_contra hne
    have hfalse : isValidPlacement (setCell b row col v) r c (b r c) = false := by
      cases hh : isValidPlacement (setCell b row col v) r c (b r c)
      · rfl
      · exact absurd hh hne
    obtain ⟨hwnz, q, hqne, hquni, hqval⟩ :=
      (isValidPlacement_false_iff_pos _ r c _).mp hfalse
    by_cases hq : q = (row, col)
    · have hveq : v = b r c := by
        rw [← hqval, hq]
        simp [setCell]
      have hquni' : sameUnit (row, col) (r, c) := hq ▸ hquni
      have hrcq : ((r, c) : Pos) ≠ (row, col) := by
        intro h
        exact hrc ⟨congrArg Prod.fst h, congrArg Prod.snd h⟩
      have hbad : isValidPlacement b row col v = false := by
        rw [isValidPlacement_false_iff_pos]
        exact ⟨by rw [hveq]; exact hwnz, (r, c), hrcq, sameUnit_symm hquni', hveq.symm⟩
      rw [hval] at hbad
      simp at hbad
    · have hqb : b q.1 q.2 = b r c := (setCell_ne hq).symm.trans hqval
      have hbad : isValidPlacement b r c (b r c) = false := by
        rw [isValidPlacement_false_iff_pos]
        exact ⟨hwnz, q, hqne, hquni, hqb⟩
      rw [hOK r c] at hbad
      simp at hbad

/-- Clearing a cell keeps the board free of rule violations. -/
theorem boardOK_clearCell (hOK : boardOK b) (row col : Fin 9) :
    boardOK (setCell b row col 0) := by
  intro r c
  by_cases hrc : r = row ∧ c = col
  · obtain ⟨rfl, rfl⟩ := hrc
    rw [setCell_self]
    unfold isValidPlacement
    simp
  · rw [setCell_ne' hrc]
    by_contra hne
    have hfalse : isValidPlacement (setCell b row col 0) r c (b r c) = false := by
      cases hh : isValidPlacement (setCell b row col 0) r c (b r c)
      · rfl
      · exact absurd hh hne
    obtain ⟨hwnz, q, hqne, hquni, hqval⟩ :=
      (isValidPlacement_false_iff_pos _ r c _).mp hfalse
    by_cases hq : q = (row, col)
    · have hz : b r c = 0 := by
        rw [← hqval, hq]
        simp [setCell]
      exact hwnz hz
    · have hqb : b q.1 q.2 = b r c := (setCell_ne hq).symm.trans hqval
      have hbad : isValidPlacement b r c (b r c) = false := by
        rw [isValidPlacement_false_iff_pos]
        exact ⟨hwnz, q, hqne, hquni, hqb⟩
      rw [hOK r c] at hbad
      simp at hbad

/-- A complete, violation-free board is its own unique completion. -/
theorem completions_of_complete (hc : ∀ r c, b r c ≠ 0) (hOK : boardOK b) :
    completions b = {b} := by
  ext sol
  rw [mem_completions, Finset.mem_singleton]
  constructor
  · rintro ⟨hext, _, _⟩
    funext r c
    exact hext r c (hc r c)
  · rintro rfl
    exact ⟨fun _ _ _ => rfl, hc, hOK⟩

theorem numCompletions_of_complete (hc : ∀ r c, b r c ≠ 0) (hOK : boardOK b) :
    numCompletions b = 1 := by
  rw [numCompletions, completions_of_complete hc hOK, Finset.card_singleton]

/-- A complete board with a rule violation has no valid completion. -/
theorem numCompletions_of_complete_bad (hc : ∀ r c, b r c ≠ 0) (hbad : ¬ boardOK b) :
    numCompletions b = 0 := by
  rw [numCompletions, Finset.card_eq_zero, Finset.eq_empty_iff_forall_not_mem]
  intro sol hsol
  rw [mem_completions] at hsol
  obtain ⟨hext, _, hok⟩ := hsol
  have : sol = b := funext fun r => funext fun c => hext r c (hc r c)
  subst this
  exact hbad hok

/-- Every nonzero cell value is one of the nine candidate digits. -/
theorem mem_digits_of_ne_zero : ∀ v : Cell, v ≠ 0 → v ∈ digits := by decide

theorem digits_ne_zero : ∀ v ∈ digits, v ≠ (0 : Cell) := by decide

theorem digits_nodup : digits.Nodup := by decide

/-- Partition of the completions of a board with an empty cell by the digit
placed at that cell. -/
theorem numCompletions_partition (h0 : b row col = 0) :
    (digits.map fun v => numCompletions (setCell b row col v)).sum = numCompletions b := by
  have hbi : completions b =
      digits.toFinset.biUnion (fun v => completions (setCell b row col v)) := by
    ext sol
    rw [mem_completions, Finset.mem_biUnion]
    constructor
    · intro hsol
      have hnz : sol row col ≠ 0 := hsol.2.1 row col
      refine ⟨sol row col, by rw [List.mem_toFinset]; exact mem_digits_of_ne_zero _ hnz, ?_⟩
      rw [mem_completions, isCompletionOf_setCell_iff h0 hnz]
      exact ⟨hsol, rfl⟩
    · rintro ⟨v, hvmem, hsol⟩
      rw [List.mem_toFinset] at hvmem
      have hv : v ≠ 0 := digits_ne_zero v hvmem
      rw [mem_completions, isCompletionOf_setCell_iff h0 hv] at hsol
      exact hsol.1
  have hdisj : ∀ x ∈ digits.toFinset, ∀ y ∈ digits.toFinset, x ≠ y →
      Disjoint (completions (setCell b row col x)) (completions (setCell b row col y)) := by
    intro x hx y hy hxy
    rw [Finset.disjoint_left]
    intro sol hsx hsy
    rw [List.mem_toFinset] at hx hy
    rw [mem_completions, isCompletionOf_setCell_iff h0 (digits_ne_zero x hx)] at hsx
    rw [mem_completions, isCompletionOf_setCell_iff h0 (digits_ne_zero y hy)] at hsy
    exact hxy (hsx.2.symm.trans hsy.2)
  have hcard : numCompletions b =
      ∑ v ∈ digits.toFinset, numCompletions (setCell b row col v) := by
    rw [numCompletions, hbi, Finset.card_biUnion hdisj]
    rfl
  rw [hcard, List.sum_toFinset _ digits_nodup]

end CompletionLemmas

attribute [irreducible] completions numCompletions

theorem numCompletions_ne_zero_of_completion {b sol : Board}
    (h : isCompletionOf b sol) : numCompletions b ≠ 0 := by
  intro h0
  rw [numCompletions, Finset.card_eq_zero, Finset.eq_empty_iff_forall_not_mem] at h0
  exact h0 sol (mem_completions.mpr h)

/-- Number of empty cells; the solver's termination measure. -/
def emptyCount (b : Board) : Nat :=
  (Finset.univ.filter fun p : Pos => b p.1 p.2 = 0).card

theorem emptyCount_setCell_lt {b : Board} {row col : Fin 9} {v : Cell}
    (h0 : b row col = 0) (hv : v ≠ 0) :
    emptyCount (setCell b row col v) < emptyCount b := by
  apply Finset.card_lt_card
  rw [Finset.ssubset_iff_of_subset]
  · refine ⟨(row, col), ?_, ?_⟩
    · simp [h0]
    · simp [setCell_self, hv]
  · intro p hp
    rw [Finset.mem_filter] at hp ⊢
    refine ⟨Finset.mem_univ _, ?_⟩
    by_cases hq : p = (row, col)
    · rw [hq] at hp
      rw [show ((row, col) : Pos).1 = row from rfl, show ((row, col) : Pos).2 = col from rfl,
        setCell_self] at hp
      exact absurd hp.2 hv
    · rw [setCell_ne hq] at hp
      exact hp.2

mutual

/-- `solveBacktrack` from `solver.ts`: find the first empty cell; if none,
the board is solved; otherwise try the digits 1–9 there in order. -/
def solveBacktrack (b : Board) : Option Board :=
  match h : findEmptyCell b with
  | none => some b
  | some p => solveTry b p.1 p.2 (findEmptyCell_eq_zero h) digits (by decide)
termination_by (emptyCount b, digits.length + 1)

/-- The digit loop of `solveBacktrack`: place each candidate that passes
`isValidPlacement`, recurse, and fall through to the next candidate when
the recursion fails. -/
def solveTry (b : Board) (row col : Fin 9) (h0 : b row col = 0)
    (ds : List Cell) (hds : (0 : Cell) ∉ ds) : Option Board :=
  match ds with
  | [] => none
  | v :: vs =>
      if isValidPlacement b row col v then
        match solveBacktrack (setCell b row col v) with
        | some solved => some solved
        | none => solveTry b row col h0 vs (fun hm => hds (List.mem_cons_of_mem _ hm))
      else solveTry b row col h0 vs (fun hm => hds (List.mem_cons_of_mem _ hm))
termination_by (emptyCount b, ds.length)
decreasing_by
  · apply Prod.Lex.left
    exact emptyCount_setCell_lt h0 (fun hv0 => hds (hv0 ▸ List.mem_cons_self v vs))
  · apply Prod.Lex.right
    simp
  · apply Prod.Lex.right
    simp

end

/-- `solve` from `solver.ts`: solve a private copy of the board. -/
def solve (b : Board) : Option Board := solveBacktrack (cloneBoard b)

theorem cloneBoard_eq (b : Board) : cloneBoard b = b := rfl

section SolverLemmas

theorem findEmptyCell_none_of_emptyCount {b : Board} (h : emptyCount b = 0) :
    findEmptyCell b = none := by
  rw [findEmptyCell_eq_none_iff]
  intro r c hz
  have hmem : (r, c) ∈ Finset.univ.filter fun p : Pos => b p.1 p.2 = 0 := by
    simp [hz]
  rw [emptyCount, Finset.card_eq_zero] at h
  rw [h] at hmem
  exact absurd hmem (Finset.not_mem_empty _)

theorem solveBacktrack_of_none {b : Board} (h : findEmptyCell b = none) :
    solveBacktrack b = some b := by
  unfold solveBacktrack
  split
  · rfl
  · rename_i p hp
    rw [h] at hp
    cases hp

theorem solveBacktrack_of_some {b : Board} {p : Pos} (h : findEmptyCell b = some p)
    (hpf : b p.1 p.2 = 0) (hd : (0 : Cell) ∉ digits) :
    solveBacktrack b = solveTry b p.1 p.2 hpf digits hd := by
  unfold solveBacktrack
  split
  · rename_i hp
    rw [h] at hp
    cases hp
  · rename_i q hq
    rw [h] at hq
    cases hq
    rfl

theorem solveTry_nil {b : Board} {row col : Fin 9} {h0 : b row col = 0}
    {hds : (0 : Cell) ∉ ([] : List Cell)} :
    solveTry b row col h0 [] hds = none := by
  unfold solveTry
  rfl

theorem solveTry_cons {b : Board} {row col : Fin 9} {h0 : b row col = 0}
    {v : Cell} {vs : List Cell} {hds : (0 : Cell) ∉ v :: vs} :
    solveTry b row col h0 (v :: vs) hds =
      if isValidPlacement b row col v then
        match solveBacktrack (setCell b row col v) with
        | some solved => some solved
        | none => solveTry b row col h0 vs (fun hm => hds (List.mem_cons_of_mem _ hm))
      else solveTry b row col h0 vs (fun hm => hds (List.mem_cons_of_mem _ hm)) := by
  conv_lhs => unfold solveTry

theorem solveTry_cons_invalid {b : Board} {row col : Fin 9} {h0 : b row col = 0}
    {v : Cell} {vs : List Cell} {hds : (0 : Cell) ∉ v :: vs}
    (hv : isValidPlacement b row col v = false) :
    solveTry b row col h0 (v :: vs) hds =
      solveTry b row col h0 vs (fun hm => hds (List.mem_cons_of_mem _ hm)) := by
  rw [solveTry_cons, if_neg (by simp [hv])]

theorem solveTry_cons_valid_some {b : Board} {row col : Fin 9} {h0 : b row col = 0}
    {v : Cell} {vs : List Cell} {hds : (0 : Cell) ∉ v :: vs} {sol : Board}
    (hv : isValidPlacement b row col v = true)
    (hs : solveBacktrack (setCell b row col v) = some sol) :
    solveTry b row col h0 (v :: vs) hds = some sol := by
  rw [solveTry_cons, if_pos hv, hs]

theorem solveTry_cons_valid_none {b : Board} {row col : Fin 9} {h0 : b row col = 0}
    {v : Cell} {vs : List Cell} {hds : (0 : Cell) ∉ v :: vs}
    (hv : isValidPlacement b row col v = true)
    (hs : solveBacktrack (setCell b row col v) = none) :
    solveTry b row col h0 (v :: vs) hds =
      solveTry b row col h0 vs (fun hm => hds (List.mem_cons_of_mem _ hm)) := by
  rw [solveTry_cons, if_pos hv, hs]

theorem solveTry_eq_none_iff {b : Board} {row col : Fin 9} (h0 : b row col = 0) :
    ∀ (ds : List Cell) (hds : (0 : Cell) ∉ ds),
      solveTry b row col h0 ds hds = none ↔
        ∀ v ∈ ds, isValidPlacement b row col v = true →
          solveBacktrack (setCell b row col v) = none := by
  intro ds
  induction ds with
  | nil =>
      intro hds
      simp [solveTry_nil]
  | cons v vs ih =>
      intro hds
      by_cases hv : isValidPlacement b row col v = true
      · cases hs : solveBacktrack (setCell b row col v) with
        | some sol =>
            rw [solveTry_cons_valid_some hv hs]
            constructor
            · intro h
              cases h
            · intro hall
              have := hall v (List.mem_cons_self _ _) hv
              rw [hs] at this
              exact this
        | none =>
            rw [solveTry_cons_valid_none hv hs, ih]
            constructor
            · intro hall w hw hwval
              rcases List.mem_cons.mp hw with rfl | hw'
              · exact hs
              · exact hall w hw' hwval
            · intro hall w hw hwval
              exact hall w (List.mem_cons_of_mem _ hw) hwval
      · have hv' : isValidPlacement b row col v = false := by
          cases hh : isValidPlacement b row col v
          · rfl
          · exact absurd hh hv
        rw [solveTry_cons_invalid hv', ih]
        constructor
        · intro hall w hw hwval
          rcases List.mem_cons.mp hw with rfl | hw'
          · exact absurd hwval hv
          · exact hall w hw' hwval
        · intro hall w hw hwval
          exact hall w (List.mem_cons_of_mem _ hw) hwval

theorem solveTry_eq_some {b : Board} {row col : Fin 9} {h0 : b row col = 0} :
    ∀ (ds : List Cell) (hds : (0 : Cell) ∉ ds) (sol : Board),
      solveTry b row col h0 ds hds = some sol →
      ∃ v ∈ ds, isValidPlacement b row col v = true ∧
        solveBacktrack (setCell b row col v) = some sol := by
  intro ds
  induction ds with
  | nil =>
      intro hds sol hs
      rw [solveTry_nil] at hs
      cases hs
  | cons v vs ih =>
      intro hds sol hs
      by_cases hv : isValidPlacement b row col v = true
      · cases hrec : solveBacktrack (setCell b row col v) with
        | some sol' =>
            rw [solveTry_cons_valid_some hv hrec] at hs
            cases hs
            exact ⟨v, List.mem_cons_self _ _, hv, hrec⟩
        | none =>
            rw [solveTry_cons_valid_none hv hrec] at hs
            obtain ⟨w, hw, hwval, hwrec⟩ := ih _ sol hs
            exact ⟨w, List.mem_cons_of_mem _ hw, hwval, hwrec⟩
      · have hv' : isValidPlacement b row col v = false := by
          cases hh : isValidPlacement b row col v
          · rfl
          · exact absurd hh hv
        rw [solveTry_cons_invalid hv'] at hs
        obtain ⟨w, hw, hwval, hwrec⟩ := ih _ sol hs
        exact ⟨w, List.mem_cons_of_mem _ hw, hwval, hwrec⟩

/-- Soundness of the backtracking search: a returned board extends the
input, is complete, and (when the input had no violations) is itself free
of violations. -/
theorem solveBacktrack_sound :
    ∀ n b sol, emptyCount b ≤ n → solveBacktrack b = some sol →
      (∀ r c, b r c ≠ 0 → sol r c = b r c) ∧ (∀ r c, sol r c ≠ 0) ∧
        (boardOK b → boardOK sol) := by
  intro n
  induction n with
  | zero =>
      intro b sol hn hs
      have hnone : findEmptyCell b = none :=
        findEmptyCell_none_of_emptyCount (Nat.le_zero.mp hn)
      rw [solveBacktrack_of_none hnone] at hs
      cases hs
      exact ⟨fun _ _ _ => rfl, findEmptyCell_eq_none_iff.mp hnone, id⟩
  | succ n ih =>
      intro b sol hn hs
      cases hfind : findEmptyCell b with
      | none =>
          rw [solveBacktrack_of_none hfind] at hs
          cases hs
          exact ⟨fun _ _ _ => rfl, findEmptyCell_eq_none_iff.mp hfind, id⟩
      | some p =>
          have hz := findEmptyCell_eq_zero hfind
          rw [solveBacktrack_of_some hfind hz (by decide)] at hs
          obtain ⟨v, hvmem, hval, hrec⟩ := solveTry_eq_some _ _ _ hs
          have hv0 : v ≠ 0 := digits_ne_zero v hvmem
          have hlt : emptyCount (setCell b p.1 p.2 v) < emptyCount b :=
            emptyCount_setCell_lt hz hv0
          obtain ⟨hext, hcomp, hok⟩ := ih (setCell b p.1 p.2 v) sol (by omega) hrec
          refine ⟨?_, hcomp, ?_⟩
          · intro r c hne
            have hneq : ¬(r = p.1 ∧ c = p.2) := by
              rintro ⟨rfl, rfl⟩
              exact hne hz
            have := hext r c (by rw [setCell_ne' hneq]; exact hne)
            rwa [setCell_ne' hneq] at this
          · intro hOK
            exact hok (boardOK_setCell hOK hval)

/-- Completeness of the backtracking search on violation-free boards: it
returns `none` exactly when the board has no valid completion. -/
theorem solveBacktrack_none_iff :
    ∀ n b, emptyCount b ≤ n → boardOK b →
      (solveBacktrack b = none ↔ numCompletions b = 0) := by
  intro n
  induction n with
  | zero =>
      intro b hn hOK
      have hnone : findEmptyCell b = none :=
        findEmptyCell_none_of_emptyCount (Nat.le_zero.mp hn)
      rw [solveBacktrack_of_none hnone,
        numCompletions_of_complete (findEmptyCell_eq_none_iff.mp hnone) hOK]
      simp
  | succ n ih =>
      intro b hn hOK
      cases hfind : findEmptyCell b with
      | none =>
          rw [solveBacktrack_of_none hfind,
            numCompletions_of_complete (findEmptyCell_eq_none_iff.mp hfind) hOK]
          simp
      | some p =>
          have hz := findEmptyCell_eq_zero hfind
          rw [solveBacktrack_of_some hfind hz (by decide),
            solveTry_eq_none_iff hz digits (by decide),
            ← numCompletions_partition hz, List.sum_eq_zero_iff]
          constructor
          · intro hall x hx
            rw [List.mem_map] at hx
            obtain ⟨v, hv, rfl⟩ := hx
            by_cases hval : isValidPlacement b p.1 p.2 v = true
            · have hlt : emptyCount (setCell b p.1 p.2 v) < emptyCount b :=
                emptyCount_setCell_lt hz (digits_ne_zero v hv)
              exact (ih _ (by omega) (boardOK_setCell hOK hval)).mp (hall v hv hval)
            · have hval' : isValidPlacement b p.1 p.2 v = false := by
                cases hh : isValidPlacement b p.1 p.2 v
                · rfl
                · exact absurd hh hval
              exact numCompletions_setCell_invalid hval'
          · intro hall v hv hval
            have hlt : emptyCount (setCell b p.1 p.2 v) < emptyCount b :=
              emptyCount_setCell_lt hz (digits_ne_zero v hv)
            apply (ih _ (by omega) (boardOK_setCell hOK hval)).mpr
            exact hall _ (List.mem_map_of_mem _ hv)

end SolverLemmas

mutual

/-- `countBacktrack`, the inner closure of `countSolutions` in `solver.ts`:
abort once the counter reaches the limit, count a completion when the board
is full, otherwise run the digit loop at the first empty cell.  The mutable
counter becomes an explicit accumulator. -/
def countBacktrack (limit : Nat) (b : Board) (count : Nat) : Nat :=
  if count ≥ limit then count
  else
    match h : findEmptyCell b with
    | none => count + 1
    | some p => countTry limit b p.1 p.2 (findEmptyCell_eq_zero h) digits (by decide) count
termination_by (emptyCount b, digits.length + 1)

/-- The digit loop of `countBacktrack`: recurse on each candidate that
passes `isValidPlacement`, returning early once the limit is reached. -/
def countTry (limit : Nat) (b : Board) (row col : Fin 9) (h0 : b row col = 0)
    (ds : List Cell) (hds : (0 : Cell) ∉ ds) (count : Nat) : Nat :=
  match ds with
  | [] => count
  | v :: vs =>
      if isValidPlacement b row col v then
        let count2 := countBacktrack limit (setCell b row col v) count
        if count2 ≥ limit then count2
        else countTry limit b row col h0 vs (fun hm => hds (List.mem_cons_of_mem _ hm)) count2
      else countTry limit b row col h0 vs (fun hm => hds (List.mem_cons_of_mem _ hm)) count
termination_by (emptyCount b, ds.length)
decreasing_by
  · apply Prod.Lex.left
    exact emptyCount_setCell_lt h0 (fun hv0 => hds (hv0 ▸ List.mem_cons_self v vs))
  · apply Prod.Lex.right
    simp
  · apply Prod.Lex.right
    simp

end

/-- `countSolutions` from `solver.ts`. -/
def countSolutions (b : Board) (limit : Nat) : Nat :=
  countBacktrack limit (cloneBoard b) 0

/-- `hasUniqueSolution` from `solver.ts`. -/
def hasUniqueSolution (b : Board) : Bool :=
  countSolutions b 2 == 1

section CounterLemmas

theorem countBacktrack_of_ge {limit : Nat} {b : Board} {count : Nat}
    (h : count ≥ limit) : countBacktrack limit b count = count := by
  unfold countBacktrack
  rw [if_pos h]

theorem countBacktrack_of_none {limit : Nat} {b : Board} {count : Nat}
    (hlt : count < limit) (h : findEmptyCell b = none) :
    countBacktrack limit b count = count + 1 := by
  unfold countBacktrack
  rw [if_neg (by omega)]
  split
  · rfl
  · rename_i p hp
    rw [h] at hp
    cases hp

theorem countBacktrack_of_some {limit : Nat} {b : Board} {count : Nat} {p : Pos}
    (hlt : count < limit) (h : findEmptyCell b = some p)
    (hpf : b p.1 p.2 = 0) (hd : (0 : Cell) ∉ digits) :
    countBacktrack limit b count = countTry limit b p.1 p.2 hpf digits hd count := by
  unfold countBacktrack
  rw [if_neg (by omega)]
  split
  · rename_i hp
    rw [h] at hp
    cases hp
  · rename_i q hq
    rw [h] at hq
    cases hq
    rfl

theorem countTry_nil {limit : Nat} {b : Board} {row col : Fin 9} {h0 : b row col = 0}
    {hds : (0 : Cell) ∉ ([] : List Cell)} {count : Nat} :
    countTry limit b row col h0 [] hds count = count := by
  unfold countTry
  rfl

theorem countTry_cons_invalid {limit : Nat} {b : Board} {row col : Fin 9}
    {h0 : b row col = 0} {v : Cell} {vs : List Cell} {hds : (0 : Cell) ∉ v :: vs}
    {count : Nat} (hv : isValidPlacement b row col v = false) :
    countTry limit b row col h0 (v :: vs) hds count =
      countTry limit b row col h0 vs (fun hm => hds (List.mem_cons_of_mem _ hm)) count := by
  conv_lhs => unfold countTry
  rw [if_neg (by simp [hv])]

theorem countTry_cons_valid {limit : Nat} {b : Board} {row col : Fin 9}
    {h0 : b row col = 0} {v : Cell} {vs : List Cell} {hds : (0 : Cell) ∉ v :: vs}
    {count : Nat} (hv : isValidPlacement b row col v = true) :
    countTry limit b row col h0 (v :: vs) hds count =
      if countBacktrack limit (setCell b row col v) count ≥ limit
      then countBacktrack limit (setCell b row col v) count
      else countTry limit b row col h0 vs (fun hm => hds (List.mem_cons_of_mem _ hm))
        (countBacktrack limit (setCell b row col v) count) := by
  conv_lhs => unfold countTry
  rw [if_pos hv]

theorem countTry_spec (limit n : Nat)
    (ih : ∀ b count, emptyCount b ≤ n → boardOK b → count ≤ limit →
      countBacktrack limit b count = min (count + numCompletions b) limit)
    {b : Board} {row col : Fin 9} (h0 : b row col = 0) (hOK : boardOK b)
    (hn : emptyCount b ≤ n + 1) :
    ∀ (ds : List Cell) (hds : (0 : Cell) ∉ ds) (count : Nat), count ≤ limit →
      countTry limit b row col h0 ds hds count =
        min (count + (ds.map fun v => numCompletions (setCell b row col v)).sum) limit := by
  intro ds
  induction ds with
  | nil =>
      intro hds count hc
      rw [countTry_nil]
      simp only [List.map_nil, List.sum_nil, Nat.add_zero]
      omega
  | cons v vs ihl =>
      intro hds count hc
      by_cases hv : isValidPlacement b row col v = true
      · have hv0 : v ≠ 0 := fun hz => hds (hz ▸ List.mem_cons_self v vs)
        have hlt : emptyCount (setCell b row col v) < emptyCount b :=
          emptyCount_setCell_lt h0 hv0
        have hOK' := boardOK_setCell hOK hv
        have hcb := ih (setCell b row col v) count (by omega) hOK' hc
        rw [countTry_cons_valid hv, hcb, List.map_cons, List.sum_cons]
        by_cases hge : limit ≤ count + numCompletions (setCell b row col v)
        · rw [if_pos (by omega)]
          omega
        · rw [if_neg (by omega)]
          rw [ihl _ _ (by omega)]
          omega
      · have hv' : isValidPlacement b row col v = false := by
          cases hh : isValidPlacement b row col v
          · rfl
          · exact absurd hh hv
        rw [countTry_cons_invalid hv', ihl _ _ hc, List.map_cons, List.sum_cons,
          numCompletions_setCell_invalid hv']
        omega

/-- The counter computes `min (count + number of completions) limit` on
violation-free boards. -/
theorem countBacktrack_spec (limit : Nat) :
    ∀ n b count, emptyCount b ≤ n → boardOK b → count ≤ limit →
      countBacktrack limit b count = min (count + numCompletions b) limit := by
  intro n
  induction n with
  | zero =>
      intro b count hn hOK hc
      have hnone := findEmptyCell_none_of_emptyCount (Nat.le_zero.mp hn)
      rcases Nat.lt_or_ge count limit with hlt | hge
      · rw [countBacktrack_of_none hlt hnone,
          numCompletions_of_complete (findEmptyCell_eq_none_iff.mp hnone) hOK]
        omega
      · rw [countBacktrack_of_ge hge]
        omega
  | succ n ih =>
      intro b count hn hOK hc
      rcases Nat.lt_or_ge count limit with hlt | hge
      · cases hfind : findEmptyCell b with
        | none =>
            rw [countBacktrack_of_none hlt hfind,
              numCompletions_of_complete (findEmptyCell_eq_none_iff.mp hfind) hOK]
            omega
        | some p =>
            have hz := findEmptyCell_eq_zero hfind
            rw [countBacktrack_of_some hlt hfind hz (by decide),
              countTry_spec limit n ih hz hOK hn digits (by decide) count hc,
              numCompletions_partition hz]
      · rw [countBacktrack_of_ge hge]
        omega

/-- `countSolutions` on a violation-free board is the number of distinct
valid completions, capped at the limit. -/
theorem countSolutions_spec (b : Board) (limit : Nat) (h : boardOK b) :
    countSolutions b limit = min (numCompletions b) limit := by
  unfold countSolutions
  rw [cloneBoard_eq,
    countBacktrack_spec limit (emptyCount b) b 0 le_rfl h (Nat.zero_le _),
    Nat.zero_add]

end CounterLemmas

section ExampleBoards

/-- The board with every cell set to 1: complete but full of conflicts. -/
def allOnesBoard : Board := fun _ _ => 1

theorem allOnesBoard_not_OK : ¬ boardOK allOnesBoard := by
  intro h
  have h00 := h 0 0
  rw [show isValidPlacement allOnesBoard 0 0 (allOnesBoard 0 0) = false from by decide] at h00
  cases h00

theorem numCompletions_allOnesBoard : numCompletions allOnesBoard = 0 :=
  numCompletions_of_complete_bad (by decide) allOnesBoard_not_OK

theorem solve_allOnesBoard : solve allOnesBoard = some allOnesBoard := by
  unfold solve
  rw [cloneBoard_eq]
  exact solveBacktrack_of_none (by decide)

theorem countSolutions_allOnesBoard : countSolutions allOnesBoard 2 = 1 := by
  unfold countSolutions
  rw [cloneBoard_eq, countBacktrack_of_none (by omega) (by decide)]

/-- A board whose row 0 holds a 7 at columns 0 and 5 and is otherwise
empty. -/
def twoSevensBoard : Board := fun r c =>
  if r = 0 ∧ c = 0 then 7 else if r = 0 ∧ c = 5 then 7 else 0

/-- A board whose row 0 holds a 5 at column 0 and is otherwise empty. -/
def rowFiveBoard : Board := fun r c =>
  if r = 0 ∧ c = 0 then 5 else 0

end ExampleBoards

section ShapeValidation

/-- A JavaScript number, i.e. a value with `typeof === 'number'`: a finite
value (doubles modelled as rationals — every concrete number below is one a
double represents exactly) or `NaN`, whose comparisons are all false.
(±Infinity is omitted: `Infinity > 9` and `-Infinity < 0` hold, so the
range check rejects each exactly as it rejects an out-of-range rational.) -/
inductive JSNumber where
  | rat (x : ℚ)
  | nan

/-- The IEEE comparison `n < q` against a rational bound: false on NaN. -/
def JSNumber.ltb : JSNumber → ℚ → Bool
  | .rat x, q => decide (x < q)
  | .nan, _ => false

/-- The IEEE comparison `n > q` against a rational bound: false on NaN. -/
def JSNumber.gtb : JSNumber → ℚ → Bool
  | .rat x, q => decide (q < x)
  | .nan, _ => false

/-- An untyped JavaScript value handed to `isValidBoardShape`: a number,
an array, or anything else. -/
inductive JSValue where
  | num (n : JSNumber)
  | arr (elems : List JSValue)
  | other

/-- The innermost check of `isValidBoardShape`:
`typeof cell === 'number'` and not (`cell < 0 || cell > 9`). -/
def cellInRange : JSValue → Bool
  | .num n => !(n.ltb 0 || n.gtb 9)
  | _ => false

/-- The per-row check of `isValidBoardShape`: an array of exactly
`GRID_SIZE` cells, each passing the cell check. -/
def rowShapeOK : JSValue → Bool
  | .arr cells => cells.length == 9 && cells.all cellInRange
  | _ => false

/-- `isValidBoardShape` from the validation module: an array of exactly
`GRID_SIZE` rows, each an array of exactly `GRID_SIZE` numbers in `[0, 9]`. -/
def isValidBoardShape : JSValue → Bool
  | .arr rows => rows.length == 9 && rows.all rowShapeOK
  | _ => false

/-- From the spec's words, cell level: an *integer* in `[0, 9]`
(integrality rendered as denominator 1; NaN is not an integer). -/
def specIntegerCell : JSValue → Bool
  | .num (.rat x) => decide (x.den = 1) && (decide (0 ≤ x) && decide (x ≤ 9))
  | _ => false

/-- From the spec's words, row level: exactly 9 integers in `[0, 9]`. -/
def specIntegerRow : JSValue → Bool
  | .arr cells => cells.length == 9 && cells.all specIntegerCell
  | _ => false

/-- From the spec's words: decodes to exactly 9 sequences of exactly 9
integers, each in the range `[0, 9]`. -/
def specIntegerGrid : JSValue → Bool
  | .arr rows => rows.length == 9 && rows.all specIntegerRow
  | _ => false

/-- The claim amended to what the code decides, cell level: a number that
is NaN (the range test passes because both its comparisons are false) or
lies in `[0, 9]`; integrality is not required. -/
def specAcceptedCell : JSValue → Bool
  | .num (.rat x) => decide (0 ≤ x) && decide (x ≤ 9)
  | .num .nan => true
  | _ => false

/-- The amended claim, row level: exactly 9 such numbers. -/
def specAcceptedRow : JSValue → Bool
  | .arr cells => cells.length == 9 && cells.all specAcceptedCell
  | _ => false

/-- The amended claim: exactly 9 sequences of exactly 9 numbers, each NaN
or in the range `[0, 9]`. -/
def specAcceptedGrid : JSValue → Bool
  | .arr rows => rows.length == 9 && rows.all specAcceptedRow
  | _ => false

theorem cellInRange_iff (c : JSValue) :
    cellInRange c = true ↔ specAcceptedCell c = true := by
  cases c with
  | num n =>
      cases n with
      | rat x => simp [cellInRange, specAcceptedCell, JSNumber.ltb, JSNumber.gtb, not_lt]
      | nan => simp [cellInRange, specAcceptedCell, JSNumber.ltb, JSNumber.gtb]
  | arr l => simp [cellInRange, specAcceptedCell]
  | other => simp [cellInRange, specAcceptedCell]

theorem rowShapeOK_iff (r : JSValue) :
    rowShapeOK r = true ↔ specAcceptedRow r = true := by
  cases r with
  | num n => simp [rowShapeOK, specAcceptedRow]
  | arr cells =>
      simp only [rowShapeOK, specAcceptedRow, Bool.and_eq_true, List.all_eq_true]
      constructor
      · rintro ⟨hl, hall⟩
        exact ⟨hl, fun c hc => (cellInRange_iff c).mp (hall c hc)⟩
      · rintro ⟨hl, hall⟩
        exact ⟨hl, fun c hc => (cellInRange_iff c).mpr (hall c hc)⟩
  | other => simp [rowShapeOK, specAcceptedRow]

/-- What `isValidBoardShape` actually decides: 9 arrays of 9 numbers, each
NaN or in `[0, 9]` — with no integrality requirement. -/
theorem isValidBoardShape_iff (v : JSValue) :
    isValidBoardShape v = true ↔ specAcceptedGrid v = true := by
  cases v with
  | num n => simp [isValidBoardShape, specAcceptedGrid]
  | arr rows =>
      simp only [isValidBoardShape, specAcceptedGrid, Bool.and_eq_true, List.all_eq_true]
      constructor
      · rintro ⟨hl, hall⟩
        exact ⟨hl, fun r hr => (rowShapeOK_iff r).mp (hall r hr)⟩
      · rintro ⟨hl, hall⟩
        exact ⟨hl, fun r hr => (rowShapeOK_iff r).mpr (hall r hr)⟩
  | other => simp [isValidBoardShape, specAcceptedGrid]

/-- A 9×9 array of the non-integer number 1/2 (exactly representable as a
JS double). -/
def halfBoard : JSValue :=
  .arr (List.replicate 9 (.arr (List.replicate 9 (.num (.rat (mkRat 1 2))))))

/-- A 9×9 array of NaN: `typeof NaN === 'number'`, and `NaN < 0` and
`NaN > 9` are both false, so every cell passes the range check. -/
def nanBoard : JSValue :=
  .arr (List.replicate 9 (.arr (List.replicate 9 (.num .nan))))

end ShapeValidation

section Shuffle

/-- The environment's source of randomness: each call to `Math.random()`
reads the next value of an arbitrary stream.  `Math.floor(Math.random() *
(i + 1))`, which lands in `[0, i]`, is modelled as `s k % (i + 1)`. -/
def RandStream : Type := Nat → Nat

/-- The stream after consuming `k` draws. -/
def streamDrop (s : RandStream) (k : Nat) : RandStream := fun n => s (n + k)

/-- The destructuring swap `[arr[i], arr[j]] = [arr[j], arr[i]]` (identity
when an index is out of range; `shuffle` only swaps in-range indices). -/
def swapAt (l : List α) (i j : Nat) : List α :=
  match l[i]?, l[j]? with
  | some a, some bv => (l.set i bv).set j a
  | _, _ => l

/-- The loop of `shuffle` from the generator: the counter runs `i`, `i - 1`,
…, `1`, swapping position `i` with a random position in `[0, i]`. -/
def shuffleAux : List α → Nat → RandStream → List α × RandStream
  | l, 0, s => (l, s)
  | l, i + 1, s => shuffleAux (swapAt l (i + 1) (s 0 % (i + 2))) i (streamDrop s 1)

/-- `shuffle` from the generator: Fisher–Yates over the whole list. -/
def shuffle (l : List α) (s : RandStream) : List α × RandStream :=
  shuffleAux l (l.length - 1) s

theorem count_set_add [DecidableEq α] :
    ∀ (l : List α) (i : Nat) (h : i < l.length) (bv x : α),
      (l.set i bv).count x + (if l.get ⟨i, h⟩ = x then 1 else 0) =
        l.count x + (if bv = x then 1 else 0) := by
  intro l
  induction l with
  | nil =>
      intro i h
      simp at h
  | cons a as ih =>
      intro i h bv x
      cases i with
      | zero =>
          have hget : (a :: as).get ⟨0, h⟩ = a := rfl
          simp only [List.set_cons_zero, List.count_cons, beq_iff_eq, hget]
          omega
      | succ n =>
          simp only [List.set_cons_succ, List.count_cons, List.get_cons_succ]
          have := ih n (by simpa using h) bv x
          simp only [beq_iff_eq]
          omega

theorem swapAt_perm [DecidableEq α] (l : List α) (i j : Nat) :
    (swapAt l i j).Perm l := by
  unfold swapAt
  split
  · rename_i a bv hi hj
    obtain ⟨hi', hia⟩ := List.getElem?_eq_some.mp hi
    obtain ⟨hj', hjb⟩ := List.getElem?_eq_some.mp hj
    rw [List.perm_iff_count]
    intro x
    have h1 := count_set_add l i hi' bv x
    have h2 := count_set_add (l.set i bv) j (by simpa using hj') a x
    have hgi : l.get ⟨i, hi'⟩ = a := hia
    have hgj : (l.set i bv).get ⟨j, by simpa using hj'⟩ = bv := by
      rw [List.get_eq_getElem, List.getElem_set]
      split
      · rfl
      · exact hjb
    rw [hgi] at h1
    rw [hgj] at h2
    have hja : l.get ⟨j, hj'⟩ = bv := hjb
    split_ifs at h1 h2 ⊢ <;> omega
  · exact List.Perm.refl _

theorem shuffleAux_perm [DecidableEq α] :
    ∀ (i : Nat) (l : List α) (s : RandStream), (shuffleAux l i s).1.Perm l := by
  intro i
  induction i with
  | zero =>
      intro l s
      exact List.Perm.refl _
  | succ n ih =>
      intro l s
      exact (ih _ _).trans (swapAt_perm l (n + 1) (s 0 % (n + 2)))

theorem shuffle_perm [DecidableEq α] (l : List α) (s : RandStream) :
    (shuffle l s).1.Perm l :=
  shuffleAux_perm _ l s

theorem zero_not_mem_shuffle_digits (s : RandStream) :
    (0 : Cell) ∉ (shuffle digits s).1 := by
  intro hm
  exact absurd ((shuffle_perm digits s).mem_iff.mp hm) (by decide)

end Shuffle

attribute [irreducible] swapAt shuffleAux shuffle

/-- `Difficulty` from `types.ts`. -/
inductive Difficulty where
  | easy
  | medium
  | hard

/-- `GIVENS_BY_DIFFICULTY` from the generator: target number of givens. -/
def GIVENS_BY_DIFFICULTY : Difficulty → Nat
  | .easy => 42
  | .medium => 34
  | .hard => 26

mutual

/-- `fillCompleteGrid` from the generator: at the first empty cell (the
nested loops `continue` past filled cells and `return` after the first
empty one), shuffle the digits 1–9 and try them in that order. -/
def fillCompleteGrid (b : Board) (s : RandStream) : Option Board × RandStream :=
  match h : findEmptyCell b with
  | none => (some b, s)
  | some p =>
      fillTry b p.1 p.2 (findEmptyCell_eq_zero h) (shuffle digits s).1
        (zero_not_mem_shuffle_digits s) (shuffle digits s).2
termination_by (emptyCount b, digits.length + 2)
decreasing_by
  apply Prod.Lex.right
  have := (shuffle_perm digits s).length_eq
  omega

/-- The digit loop of `fillCompleteGrid`, threading the random stream. -/
def fillTry (b : Board) (row col : Fin 9) (h0 : b row col = 0)
    (ds : List Cell) (hds : (0 : Cell) ∉ ds) (s : RandStream) :
    Option Board × RandStream :=
  match ds with
  | [] => (none, s)
  | v :: vs =>
      if isValidPlacement b row col v then
        match fillCompleteGrid (setCell b row col v) s with
        | (some solved, s2) => (some solved, s2)
        | (none, s2) => fillTry b row col h0 vs (fun hm => hds (List.mem_cons_of_mem _ hm)) s2
      else fillTry b row col h0 vs (fun hm => hds (List.mem_cons_of_mem _ hm)) s
termination_by (emptyCount b, ds.length)
decreasing_by
  · apply Prod.Lex.left
    exact emptyCount_setCell_lt h0 (fun hv0 => hds (hv0 ▸ List.mem_cons_self v vs))
  · apply Prod.Lex.right
    simp
  · apply Prod.Lex.right
    simp

end

/-- `generateFullGrid` from the generator: fill an empty board (the source
ignores the success flag and returns the board; on the impossible failure
the board would still be empty). -/
def generateFullGrid (s : RandStream) : Board × RandStream :=
  ((fillCompleteGrid createEmptyBoard s).1.getD createEmptyBoard,
    (fillCompleteGrid createEmptyBoard s).2)

/-- The loop of `removeCellsKeepingUniqueSolution`: walk the shuffled
positions; stop once the given count reaches the target; clear a cell and
keep the removal only when the puzzle still has exactly one solution
(otherwise the value is restored, i.e. the previous board is kept). -/
def removeLoop (targetGivens : Nat) : List Pos → Board → Nat → Board
  | [], b, _ => b
  | p :: ps, b, givensCount =>
      if givensCount ≤ targetGivens then b
      else
        let b2 := setCell b p.1 p.2 0
        if countSolutions b2 2 = 1 then removeLoop targetGivens ps b2 (givensCount - 1)
        else removeLoop targetGivens ps b givensCount

/-- `removeCellsKeepingUniqueSolution` from the generator. -/
def removeCellsKeepingUniqueSolution (b : Board) (targetGivens : Nat)
    (s : RandStream) : Board × RandStream :=
  (removeLoop targetGivens (shuffle allPositions s).1 b (GRID_SIZE * GRID_SIZE),
    (shuffle allPositions s).2)

/-- `GeneratedPuzzle` from the generator. -/
structure GeneratedPuzzle where
  puzzle : Board
  solution : Board

/-- `generatePuzzle` from the generator. -/
def generatePuzzle (difficulty : Difficulty) (s : RandStream) : GeneratedPuzzle :=
  let solution := (generateFullGrid s).1
  let targetGivens := GIVENS_BY_DIFFICULTY difficulty
  { puzzle := freezeBoard
      (removeCellsKeepingUniqueSolution (cloneBoard solution) targetGivens
        (generateFullGrid s).2).1,
    solution := freezeBoard solution }

theorem freezeBoard_eq (b : Board) : freezeBoard b = b := rfl

section FillLemmas

theorem fillCompleteGrid_of_none {b : Board} {s : RandStream}
    (h : findEmptyCell b = none) : fillCompleteGrid b s = (some b, s) := by
  unfold fillCompleteGrid
  split
  · rfl
  · rename_i p hp
    rw [h] at hp
    cases hp

theorem fillCompleteGrid_of_some {b : Board} {s : RandStream} {p : Pos}
    (h : findEmptyCell b = some p) (hpf : b p.1 p.2 = 0)
    (hd : (0 : Cell) ∉ (shuffle digits s).1) :
    fillCompleteGrid b s =
      fillTry b p.1 p.2 hpf (shuffle digits s).1 hd (shuffle digits s).2 := by
  unfold fillCompleteGrid
  split
  · rename_i hp
    rw [h] at hp
    cases hp
  · rename_i q hq
    rw [h] at hq
    cases hq
    rfl

theorem fillTry_nil {b : Board} {row col : Fin 9} {h0 : b row col = 0}
    {hds : (0 : Cell) ∉ ([] : List Cell)} {s : RandStream} :
    fillTry b row col h0 [] hds s = (none, s) := by
  unfold fillTry
  rfl

theorem fillTry_cons {b : Board} {row col : Fin 9} {h0 : b row col = 0}
    {v : Cell} {vs : List Cell} {hds : (0 : Cell) ∉ v :: vs} {s : RandStream} :
    fillTry b row col h0 (v :: vs) hds s =
      if isValidPlacement b row col v then
        match fillCompleteGrid (setCell b row col v) s with
        | (some solved, s2) => (some solved, s2)
        | (none, s2) =>
            fillTry b row col h0 vs (fun hm => hds (List.mem_cons_of_mem _ hm)) s2
      else fillTry b row col h0 vs (fun hm => hds (List.mem_cons_of_mem _ hm)) s := by
  conv_lhs => unfold fillTry

theorem fillTry_cons_invalid {b : Board} {row col : Fin 9} {h0 : b row col = 0}
    {v : Cell} {vs : List Cell} {hds : (0 : Cell) ∉ v :: vs} {s : RandStream}
    (hv : isValidPlacement b row col v = false) :
    fillTry b row col h0 (v :: vs) hds s =
      fillTry b row col h0 vs (fun hm => hds (List.mem_cons_of_mem _ hm)) s := by
  rw [fillTry_cons, if_neg (by simp [hv])]

theorem fillTry_cons_valid_some {b : Board} {row col : Fin 9} {h0 : b row col = 0}
    {v : Cell} {vs : List Cell} {hds : (0 : Cell) ∉ v :: vs} {s s2 : RandStream}
    {sol : Board} (hv : isValidPlacement b row col v = true)
    (hfc : fillCompleteGrid (setCell b row col v) s = (some sol, s2)) :
    fillTry b row col h0 (v :: vs) hds s = (some sol, s2) := by
  rw [fillTry_cons, if_pos hv, hfc]

theorem fillTry_cons_valid_none {b : Board} {row col : Fin 9} {h0 : b row col = 0}
    {v : Cell} {vs : List Cell} {hds : (0 : Cell) ∉ v :: vs} {s s2 : RandStream}
    (hv : isValidPlacement b row col v = true)
    (hfc : fillCompleteGrid (setCell b row col v) s = (none, s2)) :
    fillTry b row col h0 (v :: vs) hds s =
      fillTry b row col h0 vs (fun hm => hds (List.mem_cons_of_mem _ hm)) s2 := by
  rw [fillTry_cons, if_pos hv, hfc]

theorem fillTry_eq_some {b : Board} {row col : Fin 9} {h0 : b row col = 0} :
    ∀ (ds : List Cell) (hds : (0 : Cell) ∉ ds) (s : RandStream) (sol : Board),
      (fillTry b row col h0 ds hds s).1 = some sol →
      ∃ v ∈ ds, isValidPlacement b row col v = true ∧
        ∃ s', (fillCompleteGrid (setCell b row col v) s').1 = some sol := by
  intro ds
  induction ds with
  | nil =>
      intro hds s sol hs
      rw [fillTry_nil] at hs
      cases hs
  | cons v vs ih =>
      intro hds s sol hs
      by_cases hv : isValidPlacement b row col v = true
      · rcases hfc : fillCompleteGrid (setCell b row col v) s with ⟨res, s2⟩
        cases res with
        | some sol' =>
            rw [fillTry_cons_valid_some hv hfc] at hs
            simp only [] at hs
            cases hs
            exact ⟨v, List.mem_cons_self _ _, hv, s, by rw [hfc]⟩
        | none =>
            rw [fillTry_cons_valid_none hv hfc] at hs
            obtain ⟨w, hw, hwv, s', hws⟩ := ih _ s2 sol hs
            exact ⟨w, List.mem_cons_of_mem _ hw, hwv, s', hws⟩
      · have hv' : isValidPlacement b row col v = false := by
          cases hh : isValidPlacement b row col v
          · rfl
          · exact absurd hh hv
        rw [fillTry_cons_invalid hv'] at hs
        obtain ⟨w, hw, hwv, s', hws⟩ := ih _ s sol hs
        exact ⟨w, List.mem_cons_of_mem _ hw, hwv, s', hws⟩

/-- Soundness of the randomized fill: a returned board extends the input,
is complete and, when the input was violation-free, is violation-free. -/
theorem fillCompleteGrid_sound :
    ∀ n b s sol, emptyCount b ≤ n → (fillCompleteGrid b s).1 = some sol →
      (∀ r c, b r c ≠ 0 → sol r c = b r c) ∧ (∀ r c, sol r c ≠ 0) ∧
        (boardOK b → boardOK sol) := by
  intro n
  induction n with
  | zero =>
      intro b s sol hn hs
      have hnone : findEmptyCell b = none :=
        findEmptyCell_none_of_emptyCount (Nat.le_zero.mp hn)
      rw [fillCompleteGrid_of_none hnone] at hs
      simp only [] at hs
      cases hs
      exact ⟨fun _ _ _ => rfl, findEmptyCell_eq_none_iff.mp hnone, id⟩
  | succ n ih =>
      intro b s sol hn hs
      cases hfind : findEmptyCell b with
      | none =>
          rw [fillCompleteGrid_of_none hfind] at hs
          simp only [] at hs
          cases hs
          exact ⟨fun _ _ _ => rfl, findEmptyCell_eq_none_iff.mp hfind, id⟩
      | some p =>
          have hz := findEmptyCell_eq_zero hfind
          rw [fillCompleteGrid_of_some hfind hz (zero_not_mem_shuffle_digits s)] at hs
          obtain ⟨v, hvmem, hval, s', hrec⟩ := fillTry_eq_some _ _ _ _ hs
          have hv0 : v ≠ 0 := fun hz0 => zero_not_mem_shuffle_digits s (hz0 ▸ hvmem)
          have hlt : emptyCount (setCell b p.1 p.2 v) < emptyCount b :=
            emptyCount_setCell_lt hz hv0
          obtain ⟨hext, hcomp, hok⟩ := ih (setCell b p.1 p.2 v) s' sol (by omega) hrec
          refine ⟨?_, hcomp, ?_⟩
          · intro r c hne
            have hneq : ¬(r = p.1 ∧ c = p.2) := by
              rintro ⟨rfl, rfl⟩
              exact hne hz
            have := hext r c (by rw [setCell_ne' hneq]; exact hne)
            rwa [setCell_ne' hneq] at this
          · intro hOK
            exact hok (boardOK_setCell hOK hval)

theorem fillTry_none_iff (n : Nat)
    (ih : ∀ b s, emptyCount b ≤ n → boardOK b →
      ((fillCompleteGrid b s).1 = none ↔ numCompletions b = 0))
    {b : Board} {row col : Fin 9} (h0 : b row col = 0) (hOK : boardOK b)
    (hn : emptyCount b ≤ n + 1) :
    ∀ (ds : List Cell) (hds : (0 : Cell) ∉ ds) (s : RandStream),
      (fillTry b row col h0 ds hds s).1 = none ↔
        ∀ v ∈ ds, numCompletions (setCell b row col v) = 0 := by
  intro ds
  induction ds with
  | nil =>
      intro hds s
      rw [fillTry_nil]
      simp
  | cons v vs ihl =>
      intro hds s
      have hv0 : v ≠ 0 := fun hz => hds (hz ▸ List.mem_cons_self v vs)
      have hlt : emptyCount (setCell b row col v) < emptyCount b :=
        emptyCount_setCell_lt h0 hv0
      by_cases hv : isValidPlacement b row col v = true
      · rcases hfc : fillCompleteGrid (setCell b row col v) s with ⟨res, s2⟩
        cases res with
        | some sol =>
            rw [fillTry_cons_valid_some hv hfc]
            constructor
            · intro hcon
              cases hcon
            · intro hall
              have h0' := hall v (List.mem_cons_self _ _)
              have hnone := (ih (setCell b row col v) s (by omega)
                (boardOK_setCell hOK hv)).mpr h0'
              rw [hfc] at hnone
              cases hnone
        | none =>
            rw [fillTry_cons_valid_none hv hfc, ihl _ s2]
            have hvz : numCompletions (setCell b row col v) = 0 :=
              (ih (setCell b row col v) s (by omega)
                (boardOK_setCell hOK hv)).mp (by rw [hfc])
            constructor
            · intro hall w hw
              rcases List.mem_cons.mp hw with rfl | hw'
              · exact hvz
              · exact hall w hw'
            · intro hall w hw
              exact hall w (List.mem_cons_of_mem _ hw)
      · have hv' : isValidPlacement b row col v = false := by
          cases hh : isValidPlacement b row col v
          · rfl
          · exact absurd hh hv
        rw [fillTry_cons_invalid hv', ihl _ s]
        have hvz : numCompletions (setCell b row col v) = 0 :=
          numCompletions_setCell_invalid hv'
        constructor
        · intro hall w hw
          rcases List.mem_cons.mp hw with rfl | hw'
          · exact hvz
          · exact hall w hw'
        · intro hall w hw
          exact hall w (List.mem_cons_of_mem _ hw)

/-- Completeness of the randomized fill on violation-free boards: it fails
exactly when the board has no valid completion. -/
theorem fillCompleteGrid_none_iff :
    ∀ n b s, emptyCount b ≤ n → boardOK b →
      ((fillCompleteGrid b s).1 = none ↔ numCompletions b = 0) := by
  intro n
  induction n with
  | zero =>
      intro b s hn hOK
      have hnone : findEmptyCell b = none :=
        findEmptyCell_none_of_emptyCount (Nat.le_zero.mp hn)
      rw [fillCompleteGrid_of_none hnone,
        numCompletions_of_complete (findEmptyCell_eq_none_iff.mp hnone) hOK]
      simp
  | succ n ih =>
      intro b s hn hOK
      cases hfind : findEmptyCell b with
      | none =>
          rw [fillCompleteGrid_of_none hfind,
            numCompletions_of_complete (findEmptyCell_eq_none_iff.mp hfind) hOK]
          simp
      | some p =>
          have hz := findEmptyCell_eq_zero hfind
          rw [fillCompleteGrid_of_some hfind hz (zero_not_mem_shuffle_digits s),
            fillTry_none_iff n ih hz hOK hn _ _ _]
          constructor
          · intro hall
            rw [← numCompletions_partition hz, List.sum_eq_zero_iff]
            intro x hx
            rw [List.mem_map] at hx
            obtain ⟨v, hvd, rfl⟩ := hx
            exact hall v ((shuffle_perm digits s).mem_iff.mpr hvd)
          · intro hN v hv
            have hsum : (digits.map fun v => numCompletions (setCell b p.1 p.2 v)).sum = 0 := by
              rw [numCompletions_partition hz]
              exact hN
            exact List.sum_eq_zero_iff.mp hsum _
              (List.mem_map_of_mem _ ((shuffle_perm digits s).mem_iff.mp hv))

end FillLemmas

section GeneratorLemmas

/-- A reference solved grid (cell value `(3r + ⌊r/3⌋ + c) mod 9 + 1`),
witnessing that the empty board has at least one valid completion. -/
def baseGrid : Board := fun r c =>
  ⟨(3 * r.val + r.val / 3 + c.val) % 9 + 1, by omega⟩

theorem isValidPlacement_zero (b : Board) (row col : Fin 9) :
    isValidPlacement b row col 0 = true := by
  unfold isValidPlacement
  simp

set_option maxRecDepth 100000 in
theorem baseGrid_OK : ∀ r c, isValidPlacement baseGrid r c (baseGrid r c) = true := by decide

theorem baseGrid_completes_empty : isCompletionOf createEmptyBoard baseGrid := by
  refine ⟨?_, ?_, baseGrid_OK⟩
  · intro r c h
    exact absurd rfl h
  · intro r c
    intro h
    have : (3 * r.val + r.val / 3 + c.val) % 9 + 1 = 0 := congrArg Fin.val h
    omega

theorem boardOK_empty : boardOK createEmptyBoard := fun r c =>
  isValidPlacement_zero createEmptyBoard r c

theorem numCompletions_empty_ne_zero : numCompletions createEmptyBoard ≠ 0 :=
  numCompletions_ne_zero_of_completion baseGrid_completes_empty

/-- The full-grid generator always returns a complete, violation-free grid
with itself as its unique completion, whatever the random stream. -/
theorem generateFullGrid_spec (s : RandStream) :
    (∀ r c, (generateFullGrid s).1 r c ≠ 0) ∧ boardOK (generateFullGrid s).1 ∧
      numCompletions (generateFullGrid s).1 = 1 := by
  have hne : (fillCompleteGrid createEmptyBoard s).1 ≠ none := by
    intro h
    exact numCompletions_empty_ne_zero
      ((fillCompleteGrid_none_iff (emptyCount createEmptyBoard) createEmptyBoard s
        le_rfl boardOK_empty).mp h)
  rcases hfc : (fillCompleteGrid createEmptyBoard s).1 with _ | sol
  · exact absurd hfc hne
  · obtain ⟨hext, hcomp, hok⟩ := fillCompleteGrid_sound (emptyCount createEmptyBoard)
      createEmptyBoard s sol le_rfl hfc
    have hOKsol := hok boardOK_empty
    have hsol : (generateFullGrid s).1 = sol := by
      unfold generateFullGrid
      rw [hfc]
      rfl
    rw [hsol]
    exact ⟨hcomp, hOKsol, numCompletions_of_complete hcomp hOKsol⟩

theorem removeLoop_nil {t : Nat} {b : Board} {g : Nat} :
    removeLoop t [] b g = b := by
  unfold removeLoop
  rfl

theorem removeLoop_cons {t : Nat} {p : Pos} {ps : List Pos} {b : Board} {g : Nat} :
    removeLoop t (p :: ps) b g =
      if g ≤ t then b
      else if countSolutions (setCell b p.1 p.2 0) 2 = 1
        then removeLoop t ps (setCell b p.1 p.2 0) (g - 1)
        else removeLoop t ps b g := by
  conv_lhs => unfold removeLoop

/-- Invariant of the carving loop: starting from a violation-free board
with exactly one completion, the loop keeps the board violation-free with
exactly one completion, and never rewrites a kept cell. -/
theorem removeLoop_invariant (t : Nat) :
    ∀ (ps : List Pos) (b : Board) (g : Nat), boardOK b → numCompletions b = 1 →
      boardOK (removeLoop t ps b g) ∧ numCompletions (removeLoop t ps b g) = 1 ∧
        ∀ r c, removeLoop t ps b g r c ≠ 0 → removeLoop t ps b g r c = b r c := by
  intro ps
  induction ps with
  | nil =>
      intro b g hOK hN
      rw [removeLoop_nil]
      exact ⟨hOK, hN, fun _ _ _ => rfl⟩
  | cons p ps ih =>
      intro b g hOK hN
      rw [removeLoop_cons]
      by_cases hstop : g ≤ t
      · rw [if_pos hstop]
        exact ⟨hOK, hN, fun _ _ _ => rfl⟩
      · rw [if_neg hstop]
        by_cases hkeep : countSolutions (setCell b p.1 p.2 0) 2 = 1
        · rw [if_pos hkeep]
          have hOK2 : boardOK (setCell b p.1 p.2 0) := boardOK_clearCell hOK _ _
          have hN2 : numCompletions (setCell b p.1 p.2 0) = 1 := by
            have hmin := countSolutions_spec (setCell b p.1 p.2 0) 2 hOK2
            rw [hkeep] at hmin
            omega
          obtain ⟨h1, h2, h3⟩ := ih _ (g - 1) hOK2 hN2
          refine ⟨h1, h2, ?_⟩
          intro r c hne
          have hstep := h3 r c hne
          by_cases hrc : r = p.1 ∧ c = p.2
          · obtain ⟨rfl, rfl⟩ := hrc
            rw [setCell_self] at hstep
            exact absurd hstep hne
          · rw [hstep, setCell_ne' hrc]
        · rw [if_neg hkeep]
          exact ih _ g hOK hN

theorem generatePuzzle_puzzle_eq (d : Difficulty) (s : RandStream) :
    (generatePuzzle d s).puzzle =
      removeLoop (GIVENS_BY_DIFFICULTY d) (shuffle allPositions (generateFullGrid s).2).1
        (generateFullGrid s).1 (GRID_SIZE * GRID_SIZE) := rfl

theorem generatePuzzle_solution_eq (d : Difficulty) (s : RandStream) :
    (generatePuzzle d s).solution = (generateFullGrid s).1 := rfl

/-- Generated pair: the puzzle is violation-free with exactly one valid
completion; the solution is complete and violation-free and agrees with
the puzzle on every given. -/
theorem generatePuzzle_spec (d : Difficulty) (s : RandStream) :
    boardOK (generatePuzzle d s).puzzle ∧
      numCompletions (generatePuzzle d s).puzzle = 1 ∧
      (∀ r c, (generatePuzzle d s).puzzle r c ≠ 0 →
        (generatePuzzle d s).puzzle r c = (generatePuzzle d s).solution r c) ∧
      (∀ r c, (generatePuzzle d s).solution r c ≠ 0) ∧
      boardOK (generatePuzzle d s).solution := by
  obtain ⟨hcomp, hOK, hN⟩ := generateFullGrid_spec s
  obtain ⟨h1, h2, h3⟩ := removeLoop_invariant (GIVENS_BY_DIFFICULTY d)
    (shuffle allPositions (generateFullGrid s).2).1 (generateFullGrid s).1
    (GRID_SIZE * GRID_SIZE) hOK hN
  rw [generatePuzzle_puzzle_eq, generatePuzzle_solution_eq]
  exact ⟨h1, h2, h3, hcomp, hOK⟩

end GeneratorLemmas

theorem solve_eq (b : Board) : solve b = solveBacktrack b := by
  unfold solve
  rw [cloneBoard_eq]

/-!
## Claim theorems
-/

/-- **C1**: for every difficulty (the hard target of 26 givens included)
and every random stream, the puzzle returned by `generatePuzzle` admits
exactly one completion: `hasUniqueSolution` on it returns `true`. -/
theorem claim_C1_generated_puzzle_unique (d : Difficulty) (s : RandStream) :
    hasUniqueSolution (generatePuzzle d s).puzzle = true := by
  obtain ⟨hOK, hN, -, -, -⟩ := generatePuzzle_spec d s
  unfold hasUniqueSolution
  rw [countSolutions_spec _ 2 hOK, hN]
  decide

/-- **C2**: for every difficulty and random stream, `solve` on the
generated puzzle succeeds and returns exactly the paired solution. -/
theorem claim_C2_solve_returns_solution (d : Difficulty) (s : RandStream) :
    solve (generatePuzzle d s).puzzle = some (generatePuzzle d s).solution := by
  obtain ⟨hOK, hN, hext, hcompsol, hOKsol⟩ := generatePuzzle_spec d s
  have hsolcomp : isCompletionOf (generatePuzzle d s).puzzle (generatePuzzle d s).solution :=
    ⟨fun r c h => (hext r c h).symm, hcompsol, hOKsol⟩
  rcases hres : solve (generatePuzzle d s).puzzle with _ | sol2
  · exfalso
    have h0 : numCompletions (generatePuzzle d s).puzzle = 0 :=
      (solveBacktrack_none_iff (emptyCount _) _ le_rfl hOK).mp
        (by rw [← solve_eq]; exact hres)
    omega
  · have hsound := solveBacktrack_sound (emptyCount _) _ sol2 le_rfl
      (by rw [← solve_eq]; exact hres)
    have hcomp2 : isCompletionOf (generatePuzzle d s).puzzle sol2 :=
      ⟨hsound.1, hsound.2.1, hsound.2.2 hOK⟩
    have hcard := hN
    rw [numCompletions] at hcard
    obtain ⟨x, hx⟩ := Finset.card_eq_one.mp hcard
    have m1 : (generatePuzzle d s).solution ∈ completions (generatePuzzle d s).puzzle :=
      mem_completions.mpr hsolcomp
    have m2 : sol2 ∈ completions (generatePuzzle d s).puzzle :=
      mem_completions.mpr hcomp2
    rw [hx, Finset.mem_singleton] at m1 m2
    rw [m2, ← m1]

/-- **C3** (amended: for boards whose filled cells are conflict-free, as
`isValidPartialBoard` checks): `solve` either returns a valid completion
of the input — complete, violation-free, agreeing with every given — or
returns `none`, and it returns `none` exactly when the board has no valid
completion; it never returns a partially-filled grid. -/
theorem claim_C3_solve_spec (b : Board) (h : isValidPartialBoard b = true) :
    (solve b = none ↔ numCompletions b = 0) ∧
      ∀ sol, solve b = some sol → isCompletionOf b sol := by
  have hOK := (isValidPartialBoard_iff b).mp h
  constructor
  · rw [solve_eq]
    exact solveBacktrack_none_iff (emptyCount b) b le_rfl hOK
  · intro sol hs
    rw [solve_eq] at hs
    obtain ⟨h1, h2, h3⟩ := solveBacktrack_sound (emptyCount b) b sol le_rfl hs
    exact ⟨h1, h2, h3 hOK⟩

theorem claim_C3_witness :
    isValidPartialBoard createEmptyBoard = true ∧
      ((solve createEmptyBoard = none ↔ numCompletions createEmptyBoard = 0) ∧
        ∀ sol, solve createEmptyBoard = some sol → isCompletionOf createEmptyBoard sol) :=
  ⟨by decide, claim_C3_solve_spec createEmptyBoard (by decide)⟩

/-- **C3** fails as stated: on the complete all-ones board, which has no
valid completion, `solve` does not signal Unsolvable but returns the board
itself, and the returned grid is full of conflicts, not "fully solved". -/
theorem claim_C3_counterexample :
    solve allOnesBoard = some allOnesBoard ∧
      getConflicts allOnesBoard ≠ [] ∧
      numCompletions allOnesBoard = 0 :=
  ⟨solve_allOnesBoard, by decide, numCompletions_allOnesBoard⟩

/-- **C4** (amended: for boards whose filled cells are conflict-free):
`countSolutions b limit` is the number of distinct valid completions of
`b`, capped at `limit`. -/
theorem claim_C4_countSolutions_min (b : Board) (limit : Nat)
    (h : isValidPartialBoard b = true) :
    countSolutions b limit = min (numCompletions b) limit :=
  countSolutions_spec b limit ((isValidPartialBoard_iff b).mp h)

theorem claim_C4_witness :
    isValidPartialBoard createEmptyBoard = true ∧
      countSolutions createEmptyBoard 2 = min (numCompletions createEmptyBoard) 2 :=
  ⟨by decide, claim_C4_countSolutions_min createEmptyBoard 2 (by decide)⟩

/-- **C4** fails as stated: the all-ones board has zero valid completions,
yet `countSolutions` with limit 2 reports 1, because the traversal counts
any full grid it reaches without re-validating the givens. -/
theorem claim_C4_counterexample :
    ¬ countSolutions allOnesBoard 2 = min (numCompletions allOnesBoard) 2 := by
  rw [countSolutions_allOnesBoard, numCompletions_allOnesBoard]
  decide

/-- **C6**: `isValidPlacement` returns `true` unconditionally when
`value = 0`; otherwise it returns `false` iff the value already appears at
a different cell of the same row, the same column, or the same 3×3 block
(the cell `(row, col)` itself is excluded from the comparison). -/
theorem claim_C6_isValidPlacement (b : Board) (row col : Fin 9) (v : Cell) :
    isValidPlacement b row col v = false ↔
      v ≠ 0 ∧ ((∃ c, c ≠ col ∧ b row c = v) ∨ (∃ r, r ≠ row ∧ b r col = v) ∨
        ∃ r c, (r ≠ row ∨ c ≠ col) ∧ sameBlock (r, c) (row, col) ∧ b r c = v) :=
  isValidPlacement_false_iff b row col v

/-- **C7** fails as stated: `isValidBoardShape` accepts a 9×9 array whose
cells are the non-integer number 1/2, and also a 9×9 array of NaN (a
'number' whose comparisons are all false), so "9 sequences of 9 integers
in [0, 9]" is not what it decides. -/
theorem claim_C7_counterexample :
    (isValidBoardShape halfBoard = true ∧ specIntegerGrid halfBoard = false) ∧
      isValidBoardShape nanBoard = true ∧ specIntegerGrid nanBoard = false :=
  ⟨⟨by decide, by decide⟩, by decide, by decide⟩

/-- **C7** (amended to what the structural gate decides): `isValidBoardShape`
returns `true` iff the candidate decodes to exactly 9 sequences of exactly
9 numbers, each of which is NaN or lies in the range `[0, 9]` — integrality
is not checked, and NaN slips through the range test because `NaN < 0` and
`NaN > 9` are both false. -/
theorem claim_C7_shape_iff (v : JSValue) :
    isValidBoardShape v = true ↔ specAcceptedGrid v = true :=
  isValidBoardShape_iff v

/-- **C9**: `getConflicts` returns exactly the positions of the nonzero
cells whose value fails `isValidPlacement` against the current board; on
the board with two 7s in row 0 it returns both positions, and on the
all-zero board it returns the empty list. -/
theorem claim_C9_getConflicts :
    (∀ (b : Board) (p : Pos), p ∈ getConflicts b ↔
        b p.1 p.2 ≠ 0 ∧ isValidPlacement b p.1 p.2 (b p.1 p.2) = false) ∧
      getConflicts twoSevensBoard = [(0, 0), (0, 5)] ∧
      getConflicts createEmptyBoard = [] :=
  ⟨getConflicts_mem, by decide, by decide⟩

/-- **C10**: a conflicting cell never comes alone — its nonzero value is
duplicated at another conflicting cell of the same row, column or block. -/
theorem claim_C10_conflicts_in_groups (b : Board) (p : Pos)
    (hp : p ∈ getConflicts b) :
    b p.1 p.2 ≠ 0 ∧ ∃ q : Pos, q ≠ p ∧ q ∈ getConflicts b ∧ sameUnit q p ∧
      b q.1 q.2 = b p.1 p.2 := by
  obtain ⟨hnz, hfail⟩ := (getConflicts_mem b p).mp hp
  refine ⟨hnz, ?_⟩
  obtain ⟨-, q, hqne, hquni, hqval⟩ :=
    (isValidPlacement_false_iff_pos b p.1 p.2 _).mp hfail
  have hqnz : b q.1 q.2 ≠ 0 := by
    rw [hqval]
    exact hnz
  refine ⟨q, hqne, ?_, hquni, hqval⟩
  rw [getConflicts_mem]
  refine ⟨hqnz, ?_⟩
  rw [isValidPlacement_false_iff_pos]
  exact ⟨hqnz, (p.1, p.2), fun hh => hqne hh.symm, sameUnit_symm hquni, hqval.symm⟩

theorem claim_C10_witness :
    ((0, 0) : Pos) ∈ getConflicts twoSevensBoard ∧
      (twoSevensBoard 0 0 ≠ 0 ∧ ∃ q : Pos, q ≠ ((0, 0) : Pos) ∧
        q ∈ getConflicts twoSevensBoard ∧ sameUnit q (0, 0) ∧
        twoSevensBoard q.1 q.2 = twoSevensBoard 0 0) :=
  ⟨by decide, claim_C10_conflicts_in_groups twoSevensBoard (0, 0) (by decide)⟩

/-- **C5**: every solution board produced by `generatePuzzle` is a solved
board: complete, and free of conflicts. -/
theorem claim_C5_solution_solved (d : Difficulty) (s : RandStream) :
    isBoardComplete (generatePuzzle d s).solution = true ∧
      getConflicts (generatePuzzle d s).solution = [] := by
  obtain ⟨-, -, -, hcompsol, hOKsol⟩ := generatePuzzle_spec d s
  refine ⟨(isBoardComplete_iff _).mpr ⟨hcompsol, hOKsol⟩, ?_⟩
  have hvp := (isValidPartialBoard_iff _).mpr hOKsol
  unfold isValidPartialBoard at hvp
  rw [beq_iff_eq] at hvp
  exact List.length_eq_zero.mp hvp

end SudokuForge
